import Mathlib

/-!
Shallow embedding of the default bridging adapters of an embedded HAL:

* `src/blocking/spi.rs`: the blocking SPI `transfer` and `write` bridges,
  defined generically over any non-blocking full-duplex device via the
  `block!` busy-retry macro;
* `src/digital.rs`: the software `toggle` bridge for output pins that can
  report their commanded state.

A non-blocking device is modelled as a state machine whose `send` and
`read` perform one attempt, returning would-block, a fatal error, or
success, together with the next device state.  The `block!` macro is
modelled with explicit fuel: `none` models the case where the busy-poll
loop never terminates.  The semantics is instrumented with a trace of
attempt events so that ordering and retry behaviour are statable.
-/

/-- Outcome of one attempt of a non-blocking device operation
(the `nb::Result` of the source): not ready yet (`WouldBlock`),
a fatal error (`Other e`), or success. -/
inductive NbResult (E A : Type) : Type where
  | wouldBlock : NbResult E A
  | err (e : E) : NbResult E A
  | ok (a : A) : NbResult E A
  deriving DecidableEq

/-- A full-duplex SPI device (`spi::FullDuplex<W>`): a device-state type `S`,
an error type `E` and a word type `W`.  `send w` attempts to enqueue one word,
`read` attempts to dequeue one received word; each attempt may change the
device state. -/
structure FullDuplex (S E W : Type) : Type where
  send : W → S → NbResult E Unit × S
  read : S → NbResult E W × S

/-- One observable device event: an attempt of `send` with the word offered
and the attempt's outcome, or an attempt of `read` with its outcome. -/
inductive Ev (E W : Type) : Type where
  | send (w : W) (r : NbResult E Unit) : Ev E W
  | read (r : NbResult E W) : Ev E W
  deriving DecidableEq

/-- `block!(self.send(word))`: busy-poll `send` until it stops returning
would-block.  `fuel` bounds the number of attempts; `none` models a loop
that never terminates.  Also returns the trace of attempts made. -/
def blockSend {S E W : Type} (d : FullDuplex S E W) (w : W) :
    Nat → S → Option (Except E Unit × S × List (Ev E W))
  | 0, _ => none
  | fuel + 1, s =>
    match d.send w s with
    | (NbResult.wouldBlock, s1) =>
      match blockSend d w fuel s1 with
      | none => none
      | some (res, s2, tr) => some (res, s2, Ev.send w NbResult.wouldBlock :: tr)
    | (NbResult.err e, s1) => some (Except.error e, s1, [Ev.send w (NbResult.err e)])
    | (NbResult.ok u, s1) => some (Except.ok u, s1, [Ev.send w (NbResult.ok u)])

/-- `block!(self.read())`: busy-poll `read` until it stops returning
would-block, with fuel and trace as in `blockSend`. -/
def blockRead {S E W : Type} (d : FullDuplex S E W) :
    Nat → S → Option (Except E W × S × List (Ev E W))
  | 0, _ => none
  | fuel + 1, s =>
    match d.read s with
    | (NbResult.wouldBlock, s1) =>
      match blockRead d fuel s1 with
      | none => none
      | some (res, s2, tr) => some (res, s2, Ev.read NbResult.wouldBlock :: tr)
    | (NbResult.err e, s1) => some (Except.error e, s1, [Ev.read (NbResult.err e)])
    | (NbResult.ok r, s1) => some (Except.ok r, s1, [Ev.read (NbResult.ok r)])

/-- The blocking transfer bridge (`blocking::spi::transfer::Default`):

    for word in words.iter_mut() {
        block!(self.send(word.clone()))?;
        *word = block!(self.read())?;
    }
    Ok(words)

The first `List W` of the result is the caller-owned buffer after the call
(each position is overwritten with the received word only when its read
succeeds), the `Except` is the returned result, then the final device state
and the trace of all device attempts.  `none` models a busy-poll loop that
never terminates. -/
def transfer {S E W : Type} (d : FullDuplex S E W) (fuel : Nat) :
    List W → S → Option (List W × Except E Unit × S × List (Ev E W))
  | [], s => some ([], Except.ok (), s, [])
  | w :: ws, s =>
    match blockSend d w fuel s with
    | none => none
    | some (Except.error e, s1, tr1) => some (w :: ws, Except.error e, s1, tr1)
    | some (Except.ok _, s1, tr1) =>
      match blockRead d fuel s1 with
      | none => none
      | some (Except.error e, s2, tr2) => some (w :: ws, Except.error e, s2, tr1 ++ tr2)
      | some (Except.ok r, s2, tr2) =>
        match transfer d fuel ws s2 with
        | none => none
        | some (buf, res, s3, tr3) => some (r :: buf, res, s3, tr1 ++ (tr2 ++ tr3))

/-- The blocking write bridge (`blocking::spi::write::Default`):

    for word in words {
        block!(self.send(word.clone()))?;
        block!(self.read())?;
    }
    Ok(())

The source takes the words by shared reference and never writes to them;
the first `List W` of the result models the caller-owned sequence after the
call, carried through unchanged cell by cell, so that the read-only contract
is statable.  The received word of each read is discarded. -/
def write {S E W : Type} (d : FullDuplex S E W) (fuel : Nat) :
    List W → S → Option (List W × Except E Unit × S × List (Ev E W))
  | [], s => some ([], Except.ok (), s, [])
  | w :: ws, s =>
    match blockSend d w fuel s with
    | none => none
    | some (Except.error e, s1, tr1) => some (w :: ws, Except.error e, s1, tr1)
    | some (Except.ok _, s1, tr1) =>
      match blockRead d fuel s1 with
      | none => none
      | some (Except.error e, s2, tr2) => some (w :: ws, Except.error e, s2, tr1 ++ tr2)
      | some (Except.ok _, s2, tr2) =>
        match write d fuel ws s2 with
        | none => none
        | some (buf, res, s3, tr3) => some (w :: buf, res, s3, tr1 ++ (tr2 ++ tr3))

/-- An output pin with commanded-state introspection: the leaf capabilities
`OutputPin` (`set_low`/`set_high`) and `StatefulOutputPin`
(`is_set_high`/`is_set_low`) over a pin-state type `P`. -/
structure Pin (P : Type) : Type where
  set_low : P → P
  set_high : P → P
  is_set_high : P → Bool
  is_set_low : P → Bool

/-- One observable pin event of the toggle bridge: a query of the commanded
state with its result, or a drive command. -/
inductive PinEv : Type where
  | queryIsSetLow (b : Bool) : PinEv
  | cmdSetHigh : PinEv
  | cmdSetLow : PinEv
  deriving DecidableEq

/-- The toggle bridge (`digital::toggleable::Default`):

    if self.is_set_low() {
        self.set_high();
    } else {
        self.set_low();
    }

Returns the pin state after the call together with the list of leaf
operations performed, in order. -/
def toggle {P : Type} (pin : Pin P) (p : P) : P × List PinEv :=
  if pin.is_set_low p then
    (pin.set_high p, [PinEv.queryIsSetLow true, PinEv.cmdSetHigh])
  else
    (pin.set_low p, [PinEv.queryIsSetLow false, PinEv.cmdSetLow])

/-! ## Trace vocabulary -/

/-- Is this event a would-block (not-ready) attempt? -/
def isWB {E W : Type} : Ev E W → Bool
  | Ev.send _ NbResult.wouldBlock => true
  | Ev.read NbResult.wouldBlock => true
  | _ => false

/-- The fatal error carried by an event, if any. -/
def evErr {E W : Type} : Ev E W → Option E
  | Ev.send _ (NbResult.err e) => some e
  | Ev.read (NbResult.err e) => some e
  | _ => none

/-- The completed (non-would-block) attempts of a trace, in order. -/
def completions {E W : Type} (tr : List (Ev E W)) : List (Ev E W) :=
  tr.filter (fun ev => !isWB ev)

/-- The two completed events of one exchange: the successful send of `w`
followed by the successful read of `r`, the word received for `w`. -/
def xchg {E W : Type} (w r : W) : List (Ev E W) :=
  [Ev.send w (NbResult.ok ()), Ev.read (NbResult.ok r)]

/-- The completed events of a fully successful run over words `ws` with
received words `rs`: the exchanges in sequence order. -/
def xchgList {E W : Type} (ws rs : List W) : List (Ev E W) :=
  List.flatten (List.zipWith xchg ws rs)

/-- The next event of the trace is an attempt of the same operation as
`ev` (with the same word when `ev` is a send attempt). -/
def sameOpHead {E W : Type} : Ev E W → List (Ev E W) → Prop
  | Ev.send w _, Ev.send w2 _ :: _ => w2 = w
  | Ev.read _, Ev.read _ :: _ => True
  | _, _ => False

/-- Every would-block attempt is immediately retried: it is directly
followed by another attempt of the same operation (same word for a send). -/
def RetriesWB {E W : Type} : List (Ev E W) → Prop
  | [] => True
  | ev :: rest => (isWB ev = true → sameOpHead ev rest) ∧ RetriesWB rest

/-- The trace ends in an attempt that fails fatally with `e`, and no
earlier attempt fails: the fatal error aborts the run at once. -/
def CleanUntilErr {E W : Type} (e : E) : List (Ev E W) → Prop
  | [] => False
  | [ev] => evErr ev = some e
  | ev :: ev2 :: rest => evErr ev = none ∧ CleanUntilErr e (ev2 :: rest)

/-- Strict per-unit ordering of attempts.  In phase `false` the run is
sending the current unit: only attempts of that unit's send may occur, a
successful send moves to phase `true` (reading), and a fatal attempt must
end the trace.  In phase `true` only read attempts may occur, a successful
read moves back to sending the next unit.  `seqOrdered false tr = true`
states that the send of unit `i+1` never occurs before the read paired
with unit `i` has completed or fatally failed. -/
def seqOrdered {E W : Type} : Bool → List (Ev E W) → Bool
  | _, [] => true
  | false, Ev.send _ NbResult.wouldBlock :: rest => seqOrdered false rest
  | false, Ev.send _ (NbResult.ok _) :: rest => seqOrdered true rest
  | false, Ev.send _ (NbResult.err _) :: rest => rest.isEmpty
  | false, Ev.read _ :: _ => false
  | true, Ev.read NbResult.wouldBlock :: rest => seqOrdered true rest
  | true, Ev.read (NbResult.ok _) :: rest => seqOrdered false rest
  | true, Ev.read (NbResult.err _) :: rest => rest.isEmpty
  | true, Ev.send _ _ :: _ => false

/-- Every blocking send and every blocking read of the device terminates
successfully within `fuel` attempts, from every device state: only
transient not-ready outcomes occur before success. -/
def AlwaysSucceeds {S E W : Type} (d : FullDuplex S E W) (fuel : Nat) : Prop :=
  (∀ w s, ∃ s1 tr, blockSend d w fuel s = some (Except.ok (), s1, tr)) ∧
  (∀ s, ∃ r s1 tr, blockRead d fuel s = some (Except.ok r, s1, tr))

/-- The `StatefulOutputPin` contract (§4.1): `is_set_high` and `is_set_low`
query the last commanded state, so driving the pin establishes it. -/
def SetLawful {P : Type} (pin : Pin P) : Prop :=
  ∀ p, pin.is_set_high (pin.set_high p) = true ∧ pin.is_set_low (pin.set_low p) = true

/-- `is_set_high` and `is_set_low` are complementary. -/
def Complementary {P : Type} (pin : Pin P) : Prop :=
  ∀ p, pin.is_set_low p = !pin.is_set_high p

/-! ## Concrete devices used by the witnesses -/

/-- A device whose sends always succeed at once and whose reads return
`0xA0 + k` for the `k`-th read (the state counts reads). -/
def devOk : FullDuplex Nat Unit Nat where
  send := fun _ s => (NbResult.ok (), s)
  read := fun s => (NbResult.ok (160 + s), s + 1)

/-- A device whose second send fails fatally (the state counts completed
reads, so the send attempted after the first read fails); reads return
`0xA0 + k` as in `devOk`. -/
def devFail : FullDuplex Nat Unit Nat where
  send := fun _ s => (if s = 1 then NbResult.err () else NbResult.ok (), s)
  read := fun s => (NbResult.ok (160 + s), s + 1)

/-- A device that returns would-block once after each state change before
succeeding: state `(busy, k)`; an attempt with `busy = true` yields
would-block. -/
def devSlow : FullDuplex (Bool × Nat) Unit Nat where
  send := fun _ s =>
    match s with
    | (true, k) => (NbResult.wouldBlock, (false, k))
    | (false, k) => (NbResult.ok (), (true, k))
  read := fun s =>
    match s with
    | (true, k) => (NbResult.wouldBlock, (false, k))
    | (false, k) => (NbResult.ok (160 + k), (true, k + 1))

/-- A software pin whose state is the commanded level. -/
def pinB : Pin Bool where
  set_low := fun _ => false
  set_high := fun _ => true
  is_set_high := fun p => p
  is_set_low := fun p => !p

/-! ## Helper lemmas about traces -/

theorem completions_nil {E W : Type} : completions ([] : List (Ev E W)) = [] := rfl

theorem completions_append {E W : Type} (t1 t2 : List (Ev E W)) :
    completions (t1 ++ t2) = completions t1 ++ completions t2 :=
  List.filter_append _ _

theorem completions_replicate {E W : Type} (k : Nat) (b : Ev E W) (hb : isWB b = true) :
    completions (List.replicate k b) = [] := by
  induction k with
  | zero => rfl
  | succ k ih => simp [List.replicate_succ, completions, List.filter_cons, hb, ih]

theorem completions_cons_keep {E W : Type} (ev : Ev E W) (t : List (Ev E W))
    (h : isWB ev = false) : completions (ev :: t) = ev :: completions t := by
  simp [completions, List.filter_cons, h]

theorem xchgList_cons {E W : Type} (w r : W) (ws rs : List W) :
    @xchgList E W (w :: ws) (r :: rs) = xchg w r ++ xchgList ws rs := rfl

theorem xchgList_nil {E W : Type} (rs : List W) :
    @xchgList E W [] rs = [] := rfl

/-- Shape of a terminating blocking send: some would-block attempts of the
same word, then a single completing attempt matching the result. -/
theorem blockSend_shape {S E W : Type} (d : FullDuplex S E W) (w : W) (fuel : Nat) (s : S)
    (res : Except E Unit) (s1 : S) (tr : List (Ev E W))
    (h : blockSend d w fuel s = some (res, s1, tr)) :
    (∃ k, res = Except.ok () ∧
      tr = List.replicate k (Ev.send w NbResult.wouldBlock) ++ [Ev.send w (NbResult.ok ())]) ∨
    (∃ k e, res = Except.error e ∧
      tr = List.replicate k (Ev.send w NbResult.wouldBlock) ++ [Ev.send w (NbResult.err e)]) := by
  induction fuel generalizing s res s1 tr with
  | zero => simp [blockSend] at h
  | succ fuel ih =>
    rw [blockSend] at h
    rcases hds : d.send w s with ⟨r, s2⟩
    rw [hds] at h
    cases r with
    | wouldBlock =>
      simp only at h
      rcases hbs : blockSend d w fuel s2 with _ | ⟨res2, s3, tr2⟩ <;> rw [hbs] at h
      · exact Option.noConfusion h
      · simp only [Option.some.injEq, Prod.mk.injEq] at h
        obtain ⟨hres, hs3, htr⟩ := h
        rcases ih s2 res2 s3 tr2 hbs with ⟨k, hok, hshape⟩ | ⟨k, e, herr, hshape⟩
        · refine Or.inl ⟨k + 1, by rw [← hres, hok], ?_⟩
          rw [← htr, hshape, List.replicate_succ]
          simp
        · refine Or.inr ⟨k + 1, e, by rw [← hres, herr], ?_⟩
          rw [← htr, hshape, List.replicate_succ]
          simp
    | err e =>
      simp only [Option.some.injEq, Prod.mk.injEq] at h
      obtain ⟨hres, _, htr⟩ := h
      exact Or.inr ⟨0, e, hres.symm, by rw [← htr]; simp⟩
    | ok u =>
      simp only [Option.some.injEq, Prod.mk.injEq] at h
      obtain ⟨hres, _, htr⟩ := h
      exact Or.inl ⟨0, hres.symm, by rw [← htr]; simp⟩

/-- Shape of a terminating blocking read: some would-block attempts, then a
single completing attempt matching the result. -/
theorem blockRead_shape {S E W : Type} (d : FullDuplex S E W) (fuel : Nat) (s : S)
    (res : Except E W) (s1 : S) (tr : List (Ev E W))
    (h : blockRead d fuel s = some (res, s1, tr)) :
    (∃ k r, res = Except.ok r ∧
      tr = List.replicate k (Ev.read NbResult.wouldBlock) ++ [Ev.read (NbResult.ok r)]) ∨
    (∃ k e, res = Except.error e ∧
      tr = List.replicate k (Ev.read NbResult.wouldBlock) ++ [Ev.read (NbResult.err e)]) := by
  induction fuel generalizing s res s1 tr with
  | zero => simp [blockRead] at h
  | succ fuel ih =>
    rw [blockRead] at h
    rcases hds : d.read s with ⟨r, s2⟩
    rw [hds] at h
    cases r with
    | wouldBlock =>
      simp only at h
      rcases hbs : blockRead d fuel s2 with _ | ⟨res2, s3, tr2⟩ <;> rw [hbs] at h
      · exact Option.noConfusion h
      · simp only [Option.some.injEq, Prod.mk.injEq] at h
        obtain ⟨hres, hs3, htr⟩ := h
        rcases ih s2 res2 s3 tr2 hbs with ⟨k, rv, hok, hshape⟩ | ⟨k, e, herr, hshape⟩
        · refine Or.inl ⟨k + 1, rv, by rw [← hres, hok], ?_⟩
          rw [← htr, hshape, List.replicate_succ]
          simp
        · refine Or.inr ⟨k + 1, e, by rw [← hres, herr], ?_⟩
          rw [← htr, hshape, List.replicate_succ]
          simp
    | err e =>
      simp only [Option.some.injEq, Prod.mk.injEq] at h
      obtain ⟨hres, _, htr⟩ := h
      exact Or.inr ⟨0, e, hres.symm, by rw [← htr]; simp⟩
    | ok rv =>
      simp only [Option.some.injEq, Prod.mk.injEq] at h
      obtain ⟨hres, _, htr⟩ := h
      exact Or.inl ⟨0, rv, hres.symm, by rw [← htr]; simp⟩

theorem retries_nil {E W : Type} : RetriesWB ([] : List (Ev E W)) := trivial

/-- A blocking-send trace segment preserves `RetriesWB`: its would-block
attempts are each followed by another attempt of the same send. -/
theorem retries_sendBlock {E W : Type} (k : Nat) (w : W) (term : NbResult E Unit)
    (rest : List (Ev E W)) (hterm : isWB (Ev.send w term) = false) (h : RetriesWB rest) :
    RetriesWB (List.replicate k (Ev.send w NbResult.wouldBlock) ++ Ev.send w term :: rest) := by
  induction k with
  | zero =>
    simp only [List.replicate, List.nil_append, RetriesWB]
    exact ⟨fun hwb => absurd hwb (by simp [hterm]), h⟩
  | succ k ih =>
    simp only [List.replicate_succ, List.cons_append, RetriesWB]
    refine ⟨fun _ => ?_, ih⟩
    cases k with
    | zero => simp [sameOpHead, List.replicate]
    | succ k => simp [sameOpHead, List.replicate_succ, List.cons_append]

/-- A blocking-read trace segment preserves `RetriesWB`. -/
theorem retries_readBlock {E W : Type} (m : Nat) (term : NbResult E W)
    (rest : List (Ev E W)) (hterm : isWB (Ev.read term) = false) (h : RetriesWB rest) :
    RetriesWB (List.replicate m (Ev.read NbResult.wouldBlock) ++ Ev.read term :: rest) := by
  induction m with
  | zero =>
    simp only [List.replicate, List.nil_append, RetriesWB]
    exact ⟨fun hwb => absurd hwb (by simp [hterm]), h⟩
  | succ m ih =>
    simp only [List.replicate_succ, List.cons_append, RetriesWB]
    refine ⟨fun _ => ?_, ih⟩
    cases m with
    | zero => simp [sameOpHead, List.replicate]
    | succ m => simp [sameOpHead, List.replicate_succ, List.cons_append]

theorem clean_ne_nil {E W : Type} (e : E) (l : List (Ev E W)) (h : CleanUntilErr e l) :
    l ≠ [] := by
  intro hl
  rw [hl] at h
  exact h

theorem clean_single {E W : Type} (e : E) (ev : Ev E W) (h : evErr ev = some e) :
    CleanUntilErr e [ev] := h

/-- Prepending error-free events preserves `CleanUntilErr`. -/
theorem clean_append {E W : Type} (e : E) (l1 l2 : List (Ev E W)) (h2 : CleanUntilErr e l2)
    (h1 : ∀ ev ∈ l1, evErr ev = none) : CleanUntilErr e (l1 ++ l2) := by
  induction l1 with
  | nil => simpa using h2
  | cons a l1 ih =>
    have hne : l1 ++ l2 ≠ [] := by
      intro hl
      exact clean_ne_nil e l2 h2 (List.append_eq_nil.mp hl).2
    rcases hll : l1 ++ l2 with _ | ⟨b, rest⟩
    · exact absurd hll hne
    · rw [List.cons_append, hll]
      refine ⟨h1 a (List.mem_cons_self _ _), ?_⟩
      rw [← hll]
      exact ih (fun ev hev => h1 ev (List.mem_cons_of_mem _ hev))

theorem evErr_send_wb {E W : Type} (w : W) :
    evErr (Ev.send w (NbResult.wouldBlock : NbResult E Unit)) = none := rfl

theorem evErr_send_ok {E W : Type} (w : W) (u : Unit) :
    evErr (Ev.send w (NbResult.ok u : NbResult E Unit)) = none := rfl

theorem evErr_read_wb {E W : Type} :
    evErr (Ev.read (NbResult.wouldBlock : NbResult E W)) = none := rfl

theorem evErr_read_ok {E W : Type} (r : W) :
    evErr (Ev.read (NbResult.ok r : NbResult E W)) = (none : Option E) := rfl

/-- Every event of a successful blocking-send segment is error free. -/
theorem errFree_sendOk {E W : Type} (k : Nat) (w : W) (u : Unit) :
    ∀ ev ∈ List.replicate k (Ev.send w (NbResult.wouldBlock : NbResult E Unit)) ++
      [Ev.send w (NbResult.ok u)], evErr ev = none := by
  intro ev hev
  rcases List.mem_append.mp hev with hm | hm
  · rw [List.eq_of_mem_replicate hm]; rfl
  · rw [List.mem_singleton.mp hm]; rfl

/-- Every event of a successful blocking-read segment is error free. -/
theorem errFree_readOk {E W : Type} (m : Nat) (r : W) :
    ∀ ev ∈ List.replicate m (Ev.read (NbResult.wouldBlock : NbResult E W)) ++
      [Ev.read (NbResult.ok r)], evErr ev = (none : Option E) := by
  intro ev hev
  rcases List.mem_append.mp hev with hm | hm
  · rw [List.eq_of_mem_replicate hm]; rfl
  · rw [List.mem_singleton.mp hm]; rfl

theorem seqOrdered_send_ok {E W : Type} (k : Nat) (w : W) (u : Unit) (rest : List (Ev E W)) :
    seqOrdered false
      (List.replicate k (Ev.send w NbResult.wouldBlock) ++ Ev.send w (NbResult.ok u) :: rest) =
    seqOrdered true rest := by
  induction k with
  | zero => rfl
  | succ k ih => simp only [List.replicate_succ, List.cons_append, seqOrdered, List.append_eq, ih]

theorem seqOrdered_send_err {E W : Type} (k : Nat) (w : W) (e : E) :
    seqOrdered false
      (List.replicate k (Ev.send w NbResult.wouldBlock) ++ [Ev.send w (NbResult.err e)]) =
      (true : Bool) := by
  induction k with
  | zero => rfl
  | succ k ih => simp only [List.replicate_succ, List.cons_append, seqOrdered, List.append_eq, ih]

theorem seqOrdered_read_ok {E W : Type} (m : Nat) (r : W) (rest : List (Ev E W)) :
    seqOrdered true
      (List.replicate m (Ev.read NbResult.wouldBlock) ++ Ev.read (NbResult.ok r) :: rest) =
    seqOrdered false rest := by
  induction m with
  | zero => rfl
  | succ m ih => simp only [List.replicate_succ, List.cons_append, seqOrdered, List.append_eq, ih]

theorem seqOrdered_read_err {E W : Type} (m : Nat) (e : E) :
    seqOrdered true
      (List.replicate m (Ev.read NbResult.wouldBlock) ++ [Ev.read (NbResult.err e : NbResult E W)]) =
      (true : Bool) := by
  induction m with
  | zero => rfl
  | succ m ih => simp only [List.replicate_succ, List.cons_append, seqOrdered, List.append_eq, ih]

/-! ## Master lemmas about the blocking bridges -/

/-- When every blocking send and read succeeds, the transfer bridge
terminates and returns success. -/
theorem transfer_total {S E W : Type} (d : FullDuplex S E W) (fuel : Nat)
    (hAS : AlwaysSucceeds d fuel) (ws : List W) (s : S) :
    ∃ buf s1 tr, transfer d fuel ws s = some (buf, Except.ok (), s1, tr) := by
  induction ws generalizing s with
  | nil => exact ⟨[], s, [], rfl⟩
  | cons w ws ih =>
    obtain ⟨s1, tr1, hs⟩ := hAS.1 w s
    obtain ⟨r, s2, tr2, hr⟩ := hAS.2 s1
    obtain ⟨buf, s3, tr3, ht⟩ := ih s2
    refine ⟨r :: buf, s3, tr1 ++ (tr2 ++ tr3), ?_⟩
    rw [transfer, hs]
    simp only
    rw [hr]
    simp only
    rw [ht]

/-- A successful transfer returns one received word per input word: the
completed attempts form the exchanges of the input words with the output
words, in sequence order. -/
theorem transfer_ok_spec {S E W : Type} (d : FullDuplex S E W) (fuel : Nat) (ws : List W)
    (s : S) (buf : List W) (u : Unit) (s1 : S) (tr : List (Ev E W))
    (h : transfer d fuel ws s = some (buf, Except.ok u, s1, tr)) :
    buf.length = ws.length ∧ completions tr = xchgList ws buf := by
  induction ws generalizing s buf s1 tr with
  | nil =>
    simp only [transfer, Option.some.injEq, Prod.mk.injEq] at h
    obtain ⟨hbuf, _, _, htr⟩ := h
    subst hbuf
    subst htr
    exact ⟨rfl, rfl⟩
  | cons w ws ih =>
    rw [transfer] at h
    rcases hbs : blockSend d w fuel s with _ | ⟨res1, s1a, tr1⟩ <;> rw [hbs] at h
    · exact Option.noConfusion h
    · cases res1 with
      | error e => simp at h
      | ok u1 =>
        simp only at h
        rcases hbr : blockRead d fuel s1a with _ | ⟨res2, s2, tr2⟩ <;> rw [hbr] at h
        · exact Option.noConfusion h
        · cases res2 with
          | error e => simp at h
          | ok r =>
            simp only at h
            rcases ht : transfer d fuel ws s2 with _ | ⟨buf3, res3, s3, tr3⟩ <;> rw [ht] at h
            · exact Option.noConfusion h
            · simp only [Option.some.injEq, Prod.mk.injEq] at h
              obtain ⟨hbuf, hres, hs3, htr⟩ := h
              subst hbuf
              subst htr
              rw [hres] at ht
              obtain ⟨hlen, hcomp⟩ := ih s2 buf3 s3 tr3 ht
              rcases blockSend_shape d w fuel s _ _ _ hbs with ⟨k, _, hsh1⟩ | ⟨_, _, habs, _⟩
              · rcases blockRead_shape d fuel s1a _ _ _ hbr with ⟨m, rv, hok2, hsh2⟩ | ⟨_, _, habs, _⟩
                · have hrv : rv = r := by
                    injection hok2 with hv
                    exact hv.symm
                  subst hrv
                  constructor
                  · simp [hlen]
                  · simp [hsh1, hsh2, completions_append, hcomp, completions_replicate,
                      completions_cons_keep, xchgList_cons, xchg, isWB]
                · exact absurd habs (by simp)
              · exact absurd habs (by simp)

theorem append_singleton_cons {A : Type} (l : List A) (x : A) (l2 : List A) :
    (l ++ [x]) ++ l2 = l ++ x :: l2 := by simp

/-- A failing transfer stops at the first fatal error: the caller's buffer
keeps the original words from the failing position on, the earlier
positions hold the received words, and the completed attempts are the
earlier exchanges followed by the failing attempt. -/
theorem transfer_err_spec {S E W : Type} (d : FullDuplex S E W) (fuel : Nat) (ws : List W)
    (s : S) (buf : List W) (e : E) (s1 : S) (tr : List (Ev E W))
    (h : transfer d fuel ws s = some (buf, Except.error e, s1, tr)) :
    buf.length = ws.length ∧
    ∃ i wi, i < ws.length ∧ ws[i]? = some wi ∧ List.drop i buf = List.drop i ws ∧
      ∃ tail, (tail = [Ev.send wi (NbResult.err e)] ∨
               tail = [Ev.send wi (NbResult.ok ()), Ev.read (NbResult.err e)]) ∧
        completions tr = xchgList (List.take i ws) (List.take i buf) ++ tail := by
  induction ws generalizing s buf s1 tr with
  | nil => simp [transfer] at h
  | cons w ws ih =>
    rw [transfer] at h
    rcases hbs : blockSend d w fuel s with _ | ⟨res1, s1a, tr1⟩ <;> rw [hbs] at h
    · exact Option.noConfusion h
    · cases res1 with
      | error e1 =>
        simp only [Option.some.injEq, Prod.mk.injEq] at h
        obtain ⟨hbuf, he, _, htr⟩ := h
        injection he with he1
        subst he1
        subst hbuf
        subst htr
        rcases blockSend_shape d w fuel s _ _ _ hbs with ⟨_, habs, _⟩ | ⟨k, e2, hinj, hsh⟩
        · exact absurd habs (by simp)
        · injection hinj with he2
          subst he2
          refine ⟨rfl, 0, w, by simp, by simp, rfl, [Ev.send w (NbResult.err e1)], Or.inl rfl, ?_⟩
          simp [hsh, completions_append, completions_replicate, completions_cons_keep, isWB,
            xchgList_nil, completions_nil]
      | ok u1 =>
        simp only at h
        rcases hbr : blockRead d fuel s1a with _ | ⟨res2, s2, tr2⟩ <;> rw [hbr] at h
        · exact Option.noConfusion h
        · cases res2 with
          | error e2 =>
            simp only [Option.some.injEq, Prod.mk.injEq] at h
            obtain ⟨hbuf, he, _, htr⟩ := h
            injection he with he1
            subst he1
            subst hbuf
            subst htr
            rcases blockSend_shape d w fuel s _ _ _ hbs with ⟨k, _, hsh1⟩ | ⟨_, _, habs, _⟩
            · rcases blockRead_shape d fuel s1a _ _ _ hbr with ⟨_, _, habs, _⟩ | ⟨m, e3, hinj, hsh2⟩
              · exact absurd habs (by simp)
              · injection hinj with he3
                subst he3
                refine ⟨rfl, 0, w, by simp, by simp, rfl,
                  [Ev.send w (NbResult.ok ()), Ev.read (NbResult.err e2)], Or.inr rfl, ?_⟩
                simp [hsh1, hsh2, completions_append, completions_replicate,
                  completions_cons_keep, isWB, xchgList_nil, completions_nil]
            · exact absurd habs (by simp)
          | ok r =>
            simp only at h
            rcases ht : transfer d fuel ws s2 with _ | ⟨buf3, res3, s3, tr3⟩ <;> rw [ht] at h
            · exact Option.noConfusion h
            · simp only [Option.some.injEq, Prod.mk.injEq] at h
              obtain ⟨hbuf, hres, hs3, htr⟩ := h
              subst hbuf
              subst htr
              rw [hres] at ht
              obtain ⟨hlen3, i, wi, hi, hget, hdrop, tail, htail, hcomp⟩ :=
                ih s2 buf3 s3 tr3 ht
              rcases blockSend_shape d w fuel s _ _ _ hbs with ⟨k, _, hsh1⟩ | ⟨_, _, habs, _⟩
              · rcases blockRead_shape d fuel s1a _ _ _ hbr with ⟨m, rv, hok2, hsh2⟩ | ⟨_, _, habs, _⟩
                · have hrv : rv = r := by
                    injection hok2 with hv
                    exact hv.symm
                  subst hrv
                  refine ⟨by simp [hlen3], i + 1, wi, by simp [Nat.succ_lt_succ hi], by simp [hget],
                    by simp [hdrop], tail, htail, ?_⟩
                  simp [hsh1, hsh2, completions_append, hcomp, completions_replicate,
                    completions_cons_keep, isWB, xchgList_cons, xchg, List.take_succ_cons]
                · exact absurd habs (by simp)
              · exact absurd habs (by simp)

/-- Every would-block attempt made during a transfer is immediately
retried with the same operation. -/
theorem transfer_retries {S E W : Type} (d : FullDuplex S E W) (fuel : Nat) (ws : List W)
    (s : S) (buf : List W) (res : Except E Unit) (s1 : S) (tr : List (Ev E W))
    (h : transfer d fuel ws s = some (buf, res, s1, tr)) : RetriesWB tr := by
  induction ws generalizing s buf res s1 tr with
  | nil =>
    simp only [transfer, Option.some.injEq, Prod.mk.injEq] at h
    obtain ⟨_, _, _, htr⟩ := h
    subst htr
    exact retries_nil
  | cons w ws ih =>
    rw [transfer] at h
    rcases hbs : blockSend d w fuel s with _ | ⟨res1, s1a, tr1⟩ <;> rw [hbs] at h
    · exact Option.noConfusion h
    · cases res1 with
      | error e1 =>
        simp only [Option.some.injEq, Prod.mk.injEq] at h
        obtain ⟨_, _, _, htr⟩ := h
        subst htr
        rcases blockSend_shape d w fuel s _ _ _ hbs with ⟨_, habs, _⟩ | ⟨k, e2, _, hsh⟩
        · exact absurd habs (by simp)
        · rw [hsh]
          exact retries_sendBlock k w (NbResult.err e2) [] rfl retries_nil
      | ok u1 =>
        simp only at h
        rcases hbr : blockRead d fuel s1a with _ | ⟨res2, s2, tr2⟩ <;> rw [hbr] at h
        · exact Option.noConfusion h
        · rcases blockSend_shape d w fuel s _ _ _ hbs with ⟨k, _, hsh1⟩ | ⟨_, _, habs, _⟩
          · cases res2 with
            | error e2 =>
              simp only [Option.some.injEq, Prod.mk.injEq] at h
              obtain ⟨_, _, _, htr⟩ := h
              subst htr
              rcases blockRead_shape d fuel s1a _ _ _ hbr with ⟨_, _, habs, _⟩ | ⟨m, e3, _, hsh2⟩
              · exact absurd habs (by simp)
              · rw [hsh1, hsh2, append_singleton_cons]
                exact retries_sendBlock k w (NbResult.ok ()) _ rfl
                  (retries_readBlock m (NbResult.err e3) [] rfl retries_nil)
            | ok r =>
              simp only at h
              rcases ht : transfer d fuel ws s2 with _ | ⟨buf3, res3, s3, tr3⟩ <;> rw [ht] at h
              · exact Option.noConfusion h
              · simp only [Option.some.injEq, Prod.mk.injEq] at h
                obtain ⟨_, _, _, htr⟩ := h
                subst htr
                rcases blockRead_shape d fuel s1a _ _ _ hbr with ⟨m, rv, _, hsh2⟩ | ⟨_, _, habs, _⟩
                · rw [hsh1, hsh2, append_singleton_cons, append_singleton_cons]
                  exact retries_sendBlock k w (NbResult.ok ()) _ rfl
                    (retries_readBlock m (NbResult.ok rv) _ rfl (ih s2 buf3 res3 s3 tr3 ht))
                · exact absurd habs (by simp)
          · exact absurd habs (by simp)

/-- A transfer that returns a fatal error made that error on its very last
attempt, and no earlier attempt failed. -/
theorem transfer_clean {S E W : Type} (d : FullDuplex S E W) (fuel : Nat) (ws : List W)
    (s : S) (buf : List W) (e : E) (s1 : S) (tr : List (Ev E W))
    (h : transfer d fuel ws s = some (buf, Except.error e, s1, tr)) : CleanUntilErr e tr := by
  induction ws generalizing s buf s1 tr with
  | nil => simp [transfer] at h
  | cons w ws ih =>
    rw [transfer] at h
    rcases hbs : blockSend d w fuel s with _ | ⟨res1, s1a, tr1⟩ <;> rw [hbs] at h
    · exact Option.noConfusion h
    · cases res1 with
      | error e1 =>
        simp only [Option.some.injEq, Prod.mk.injEq] at h
        obtain ⟨_, he, _, htr⟩ := h
        injection he with he1
        subst he1
        subst htr
        rcases blockSend_shape d w fuel s _ _ _ hbs with ⟨_, habs, _⟩ | ⟨k, e2, hinj, hsh⟩
        · exact absurd habs (by simp)
        · injection hinj with he2
          subst he2
          rw [hsh]
          exact clean_append e1 _ _ (clean_single e1 _ rfl)
            (fun ev hev => by rw [List.eq_of_mem_replicate hev]; rfl)
      | ok u1 =>
        simp only at h
        rcases hbr : blockRead d fuel s1a with _ | ⟨res2, s2, tr2⟩ <;> rw [hbr] at h
        · exact Option.noConfusion h
        · rcases blockSend_shape d w fuel s _ _ _ hbs with ⟨k, _, hsh1⟩ | ⟨_, _, habs, _⟩
          · cases res2 with
            | error e2 =>
              simp only [Option.some.injEq, Prod.mk.injEq] at h
              obtain ⟨_, he, _, htr⟩ := h
              injection he with he1
              subst he1
              subst htr
              rcases blockRead_shape d fuel s1a _ _ _ hbr with ⟨_, _, habs, _⟩ | ⟨m, e3, hinj, hsh2⟩
              · exact absurd habs (by simp)
              · injection hinj with he3
                subst he3
                rw [hsh1, hsh2]
                refine clean_append e2 _ _ ?_ (errFree_sendOk k w ())
                exact clean_append e2 _ _ (clean_single e2 _ rfl)
                  (fun ev hev => by rw [List.eq_of_mem_replicate hev]; rfl)
            | ok r =>
              simp only at h
              rcases ht : transfer d fuel ws s2 with _ | ⟨buf3, res3, s3, tr3⟩ <;> rw [ht] at h
              · exact Option.noConfusion h
              · simp only [Option.some.injEq, Prod.mk.injEq] at h
                obtain ⟨_, hres, _, htr⟩ := h
                subst htr
                rw [hres] at ht
                rcases blockRead_shape d fuel s1a _ _ _ hbr with ⟨m, rv, _, hsh2⟩ | ⟨_, _, habs, _⟩
                · rw [hsh1, hsh2]
                  refine clean_append e _ _ ?_ (errFree_sendOk k w ())
                  exact clean_append e _ _ (ih s2 buf3 s3 tr3 ht) (errFree_readOk m rv)
                · exact absurd habs (by simp)
          · exact absurd habs (by simp)

/-- The attempts of a transfer are strictly ordered per unit: send
attempts for a unit, its completion, then read attempts, then the next
unit, with a fatal attempt only as the very last event. -/
theorem transfer_seq {S E W : Type} (d : FullDuplex S E W) (fuel : Nat) (ws : List W)
    (s : S) (buf : List W) (res : Except E Unit) (s1 : S) (tr : List (Ev E W))
    (h : transfer d fuel ws s = some (buf, res, s1, tr)) : seqOrdered false tr = true := by
  induction ws generalizing s buf res s1 tr with
  | nil =>
    simp only [transfer, Option.some.injEq, Prod.mk.injEq] at h
    obtain ⟨_, _, _, htr⟩ := h
    subst htr
    rfl
  | cons w ws ih =>
    rw [transfer] at h
    rcases hbs : blockSend d w fuel s with _ | ⟨res1, s1a, tr1⟩ <;> rw [hbs] at h
    · exact Option.noConfusion h
    · cases res1 with
      | error e1 =>
        simp only [Option.some.injEq, Prod.mk.injEq] at h
        obtain ⟨_, _, _, htr⟩ := h
        subst htr
        rcases blockSend_shape d w fuel s _ _ _ hbs with ⟨_, habs, _⟩ | ⟨k, e2, _, hsh⟩
        · exact absurd habs (by simp)
        · rw [hsh]
          exact seqOrdered_send_err k w e2
      | ok u1 =>
        simp only at h
        rcases hbr : blockRead d fuel s1a with _ | ⟨res2, s2, tr2⟩ <;> rw [hbr] at h
        · exact Option.noConfusion h
        · rcases blockSend_shape d w fuel s _ _ _ hbs with ⟨k, _, hsh1⟩ | ⟨_, _, habs, _⟩
          · cases res2 with
            | error e2 =>
              simp only [Option.some.injEq, Prod.mk.injEq] at h
              obtain ⟨_, _, _, htr⟩ := h
              subst htr
              rcases blockRead_shape d fuel s1a _ _ _ hbr with ⟨_, _, habs, _⟩ | ⟨m, e3, _, hsh2⟩
              · exact absurd habs (by simp)
              · rw [hsh1, hsh2, append_singleton_cons, seqOrdered_send_ok]
                exact seqOrdered_read_err m e3
            | ok r =>
              simp only at h
              rcases ht : transfer d fuel ws s2 with _ | ⟨buf3, res3, s3, tr3⟩ <;> rw [ht] at h
              · exact Option.noConfusion h
              · simp only [Option.some.injEq, Prod.mk.injEq] at h
                obtain ⟨_, _, _, htr⟩ := h
                subst htr
                rcases blockRead_shape d fuel s1a _ _ _ hbr with ⟨m, rv, _, hsh2⟩ | ⟨_, _, habs, _⟩
                · rw [hsh1, hsh2, append_singleton_cons, append_singleton_cons,
                    seqOrdered_send_ok, seqOrdered_read_ok]
                  exact ih s2 buf3 res3 s3 tr3 ht
                · exact absurd habs (by simp)
          · exact absurd habs (by simp)

/-- The write bridge performs exactly the device operations of the transfer
bridge and returns the caller's sequence untouched: it is the transfer run
with the received words discarded. -/
theorem write_eq_transfer {S E W : Type} (d : FullDuplex S E W) (fuel : Nat)
    (ws : List W) (s : S) :
    write d fuel ws s = Option.map (fun x => (ws, x.2)) (transfer d fuel ws s) := by
  induction ws generalizing s with
  | nil => rfl
  | cons w ws ih =>
    rw [write, transfer]
    rcases hbs : blockSend d w fuel s with _ | ⟨res1, s1a, tr1⟩
    · rfl
    · cases res1 with
      | error e1 => rfl
      | ok u1 =>
        simp only
        rcases hbr : blockRead d fuel s1a with _ | ⟨res2, s2, tr2⟩
        · rfl
        · cases res2 with
          | error e2 => rfl
          | ok r =>
            simp only
            rw [ih s2]
            rcases ht : transfer d fuel ws s2 with _ | ⟨buf3, res3, s3, tr3⟩
            · rfl
            · rfl

/-- A terminating write run keeps the caller's sequence and matches some
transfer run in result, final state and trace. -/
theorem write_some {S E W : Type} (d : FullDuplex S E W) (fuel : Nat) (ws : List W) (s : S)
    (buf : List W) (res : Except E Unit) (s1 : S) (tr : List (Ev E W))
    (h : write d fuel ws s = some (buf, res, s1, tr)) :
    buf = ws ∧ ∃ bt, transfer d fuel ws s = some (bt, res, s1, tr) := by
  rw [write_eq_transfer] at h
  rcases htt : transfer d fuel ws s with _ | ⟨bt, rt, st, tt⟩ <;> rw [htt] at h
  · exact Option.noConfusion h
  · simp only [Option.map, Option.some.injEq, Prod.mk.injEq] at h
    obtain ⟨hbuf, hres, hs, htr⟩ := h
    subst hres
    subst hs
    subst htr
    exact ⟨hbuf.symm, bt, rfl⟩

/-- With complementary state queries, `is_set_high` is the negation of
`is_set_low`. -/
theorem compl_high_eq_not_low {P : Type} (pin : Pin P) (hc : Complementary pin) (q : P) :
    pin.is_set_high q = !pin.is_set_low q := by
  rw [hc q, Bool.not_not]

/-! ## Claims -/

/-- Claim C5: for every pin implementing the toggle bridge (so satisfying
the commanded-state pin contract) whose `is_set_high`/`is_set_low` are
complementary: if `is_set_low` is true before `toggle`, `is_set_high` is
true afterwards, and vice versa. -/
theorem toggle_flips_commanded_state {P : Type} (pin : Pin P) (p : P)
    (hc : Complementary pin) (hl : SetLawful pin) :
    (pin.is_set_low p = true → pin.is_set_high (toggle pin p).1 = true) ∧
    (pin.is_set_high p = true → pin.is_set_low (toggle pin p).1 = true) := by
  constructor
  · intro hlow
    simp [toggle, hlow, (hl p).1]
  · intro hhigh
    have hlow : pin.is_set_low p = false := by rw [hc p, hhigh]; rfl
    simp [toggle, hlow, (hl p).2]

/-- Witness for C5 at a concrete software pin driven low. -/
theorem toggle_flips_commanded_state_witness :
    (pinB.is_set_low false = true → pinB.is_set_high (toggle pinB false).1 = true) ∧
    (pinB.is_set_high false = true → pinB.is_set_low (toggle pinB false).1 = true) :=
  toggle_flips_commanded_state pinB false (fun p => by cases p <;> rfl)
    (fun p => ⟨rfl, rfl⟩)

/-- Claim C6: for every pin implementing the toggle bridge (commanded-state
pin contract) with complementary `is_set_high`/`is_set_low`, toggling twice
returns the commanded state, as observed through both queries, to its value
before the first call. -/
theorem toggle_twice_restores_commanded_state {P : Type} (pin : Pin P) (p : P)
    (hc : Complementary pin) (hl : SetLawful pin) :
    pin.is_set_high (toggle pin (toggle pin p).1).1 = pin.is_set_high p ∧
    pin.is_set_low (toggle pin (toggle pin p).1).1 = pin.is_set_low p := by
  cases hlow : pin.is_set_low p with
  | true =>
    have h1 : (toggle pin p).1 = pin.set_high p := by simp [toggle, hlow]
    have hl1 : pin.is_set_low (pin.set_high p) = false := by
      rw [hc (pin.set_high p), (hl p).1]; rfl
    have h2 : (toggle pin (pin.set_high p)).1 = pin.set_low (pin.set_high p) := by
      simp [toggle, hl1]
    have hl2 : pin.is_set_low (pin.set_low (pin.set_high p)) = true := (hl (pin.set_high p)).2
    rw [h1, h2]
    rw [compl_high_eq_not_low pin hc, compl_high_eq_not_low pin hc, hl2, hlow]
    exact ⟨rfl, rfl⟩
  | false =>
    have h1 : (toggle pin p).1 = pin.set_low p := by simp [toggle, hlow]
    have hl1 : pin.is_set_low (pin.set_low p) = true := (hl p).2
    have h2 : (toggle pin (pin.set_low p)).1 = pin.set_high (pin.set_low p) := by
      simp [toggle, hl1]
    have hl2 : pin.is_set_low (pin.set_high (pin.set_low p)) = false := by
      rw [hc (pin.set_high (pin.set_low p)), (hl (pin.set_low p)).1]; rfl
    rw [h1, h2]
    rw [compl_high_eq_not_low pin hc, compl_high_eq_not_low pin hc, hl2, hlow]
    exact ⟨rfl, rfl⟩

/-- Witness for C6 at a concrete software pin driven high. -/
theorem toggle_twice_restores_commanded_state_witness :
    pinB.is_set_high (toggle pinB (toggle pinB true).1).1 = pinB.is_set_high true ∧
    pinB.is_set_low (toggle pinB (toggle pinB true).1).1 = pinB.is_set_low true :=
  toggle_twice_restores_commanded_state pinB true (fun p => by cases p <;> rfl)
    (fun p => ⟨rfl, rfl⟩)

/-- Claim C9: for every pin, `toggle` consults only `is_set_low` and issues
exactly one drive command: `set_high` when `is_set_low` is true and
`set_low` in every other case, deterministically, with no appeal to
`is_set_high` — also when the two queries are not complementary. -/
theorem toggle_consults_is_set_low_only {P : Type} (pin : Pin P) (p : P) :
    (pin.is_set_low p = true →
      toggle pin p = (pin.set_high p, [PinEv.queryIsSetLow true, PinEv.cmdSetHigh])) ∧
    (pin.is_set_low p = false →
      toggle pin p = (pin.set_low p, [PinEv.queryIsSetLow false, PinEv.cmdSetLow])) := by
  constructor <;> intro h <;> simp [toggle, h]

/-- Witness for C9 at a pin whose queries are not complementary: both
queries return false, and `toggle` still deterministically drives low. -/
theorem toggle_consults_is_set_low_only_witness :
    (Pin.mk (fun _ => 0) (fun _ => 1) (fun _ => false) (fun _ => false) :
        Pin Nat).is_set_low 5 = false ∧
    toggle (Pin.mk (fun _ => 0) (fun _ => 1) (fun _ => false) (fun _ => false)) 5 =
      ((0 : Nat), [PinEv.queryIsSetLow false, PinEv.cmdSetLow]) :=
  ⟨rfl, (toggle_consults_is_set_low_only
    (Pin.mk (fun _ => 0) (fun _ => 1) (fun _ => false) (fun _ => false)) 5).2 rfl⟩

/-- Claim C1: when every send and read eventually succeeds (only transient
not-ready outcomes before success), blocking transfer returns Ok with a
sequence of the same length as the input, in which position i holds the
unit received in exchange for sending the input unit at position i, in
sequence order: the completed attempts are exactly the in-order exchanges
of input words with output words. -/
theorem blocking_transfer_ok_exchanges_in_order {S E W : Type} (d : FullDuplex S E W)
    (fuel : Nat) (hAS : AlwaysSucceeds d fuel) (ws : List W) (s : S) :
    ∃ buf s1 tr, transfer d fuel ws s = some (buf, Except.ok (), s1, tr) ∧
      buf.length = ws.length ∧ completions tr = xchgList ws buf := by
  obtain ⟨buf, s1, tr, h⟩ := transfer_total d fuel hAS ws s
  obtain ⟨hlen, hcomp⟩ := transfer_ok_spec d fuel ws s buf () s1 tr h
  exact ⟨buf, s1, tr, h, hlen, hcomp⟩

/-- Witness for C1 at a concrete always-ready device. -/
theorem blocking_transfer_ok_exchanges_in_order_witness :
    ∃ buf s1 tr, transfer devOk 1 [1, 2, 3] 0 = some (buf, Except.ok (), s1, tr) ∧
      buf.length = ([1, 2, 3] : List Nat).length ∧ completions tr = xchgList [1, 2, 3] buf :=
  blocking_transfer_ok_exchanges_in_order devOk 1
    ⟨fun w s => ⟨s, [Ev.send w (NbResult.ok ())], rfl⟩,
     fun s => ⟨160 + s, s + 1, [Ev.read (NbResult.ok (160 + s))], rfl⟩⟩ [1, 2, 3] 0

/-- Claim C2: a blocking transfer that returns a fatal error failed at some
position i: the caller-owned sequence keeps its length, holds the words
received in exchange in positions before i, and the caller's unmodified
original words from position i on; the completed attempts are the earlier
exchanges followed by the failing attempt on the unit at position i
carrying that same error. -/
theorem blocking_transfer_stops_at_first_fatal {S E W : Type} (d : FullDuplex S E W) (fuel : Nat)
    (ws : List W) (s : S) (buf : List W) (e : E) (s1 : S) (tr : List (Ev E W))
    (h : transfer d fuel ws s = some (buf, Except.error e, s1, tr)) :
    buf.length = ws.length ∧
    ∃ i wi, i < ws.length ∧ ws[i]? = some wi ∧ List.drop i buf = List.drop i ws ∧
      ∃ tail, (tail = [Ev.send wi (NbResult.err e)] ∨
               tail = [Ev.send wi (NbResult.ok ()), Ev.read (NbResult.err e)]) ∧
        completions tr = xchgList (List.take i ws) (List.take i buf) ++ tail :=
  transfer_err_spec d fuel ws s buf e s1 tr h

/-- Witness for C2: the spec's scenario of a device whose second send fails
fatally, over the sequence 1, 2, 3. -/
theorem blocking_transfer_stops_at_first_fatal_witness :
    ([160, 2, 3] : List Nat).length = ([1, 2, 3] : List Nat).length ∧
    ∃ i wi, i < ([1, 2, 3] : List Nat).length ∧ ([1, 2, 3] : List Nat)[i]? = some wi ∧
      List.drop i [160, 2, 3] = List.drop i [1, 2, 3] ∧
      ∃ tail, (tail = [Ev.send wi (NbResult.err ())] ∨
               tail = [Ev.send wi (NbResult.ok ()), Ev.read (NbResult.err ())]) ∧
        completions [Ev.send 1 (NbResult.ok ()), Ev.read (NbResult.ok 160),
            Ev.send 2 (NbResult.err ())] =
          xchgList (List.take i [1, 2, 3]) (List.take i [160, 2, 3]) ++ tail :=
  blocking_transfer_stops_at_first_fatal devFail 1 [1, 2, 3] 0 [160, 2, 3] () 1
    [Ev.send 1 (NbResult.ok ()), Ev.read (NbResult.ok 160), Ev.send 2 (NbResult.err ())] rfl

/-- Claim C3: in both blocking bridges, a transient not-ready attempt is
never surfaced: every would-block attempt is immediately retried with the
same operation; and a fatal error is propagated at once and unchanged: the
failing attempt carries exactly the returned error, is the last attempt
made, and no earlier attempt failed. -/
theorem bridges_retry_transient_and_propagate_fatal :
    (∀ (S E W : Type) (d : FullDuplex S E W) (fuel : Nat) (ws : List W) (s : S)
      (buf : List W) (res : Except E Unit) (s1 : S) (tr : List (Ev E W)),
      transfer d fuel ws s = some (buf, res, s1, tr) →
        RetriesWB tr ∧ ∀ e, res = Except.error e → CleanUntilErr e tr) ∧
    (∀ (S E W : Type) (d : FullDuplex S E W) (fuel : Nat) (ws : List W) (s : S)
      (buf : List W) (res : Except E Unit) (s1 : S) (tr : List (Ev E W)),
      write d fuel ws s = some (buf, res, s1, tr) →
        RetriesWB tr ∧ ∀ e, res = Except.error e → CleanUntilErr e tr) := by
  constructor
  · intro S E W d fuel ws s buf res s1 tr h
    refine ⟨transfer_retries d fuel ws s buf res s1 tr h, ?_⟩
    intro e he
    subst he
    exact transfer_clean d fuel ws s buf e s1 tr h
  · intro S E W d fuel ws s buf res s1 tr h
    obtain ⟨_, bt, htt⟩ := write_some d fuel ws s buf res s1 tr h
    refine ⟨transfer_retries d fuel ws s bt res s1 tr htt, ?_⟩
    intro e he
    subst he
    exact transfer_clean d fuel ws s bt e s1 tr htt

/-- Witness for C3: a transfer on a device with would-block retries, and a
write that fails fatally on its second unit. -/
theorem bridges_retry_transient_and_propagate_fatal_witness :
    (RetriesWB ([Ev.send 1 NbResult.wouldBlock, Ev.send 1 (NbResult.ok ()),
        Ev.read NbResult.wouldBlock, Ev.read (NbResult.ok 160),
        Ev.send 2 NbResult.wouldBlock, Ev.send 2 (NbResult.ok ()),
        Ev.read NbResult.wouldBlock, Ev.read (NbResult.ok 161)] : List (Ev Unit Nat)) ∧
      ∀ e, (Except.ok () : Except Unit Unit) = Except.error e →
        CleanUntilErr e ([Ev.send 1 NbResult.wouldBlock, Ev.send 1 (NbResult.ok ()),
          Ev.read NbResult.wouldBlock, Ev.read (NbResult.ok 160),
          Ev.send 2 NbResult.wouldBlock, Ev.send 2 (NbResult.ok ()),
          Ev.read NbResult.wouldBlock, Ev.read (NbResult.ok 161)] : List (Ev Unit Nat))) ∧
    (RetriesWB ([Ev.send 5 (NbResult.ok ()), Ev.read (NbResult.ok 160),
        Ev.send 6 (NbResult.err ())] : List (Ev Unit Nat)) ∧
      ∀ e, (Except.error () : Except Unit Unit) = Except.error e →
        CleanUntilErr e ([Ev.send 5 (NbResult.ok ()), Ev.read (NbResult.ok 160),
          Ev.send 6 (NbResult.err ())] : List (Ev Unit Nat))) :=
  ⟨bridges_retry_transient_and_propagate_fatal.1 (Bool × Nat) Unit Nat devSlow 2
      [1, 2] (true, 0) [160, 161] (Except.ok ()) (true, 2) _ rfl,
   bridges_retry_transient_and_propagate_fatal.2 Nat Unit Nat devFail 1
      [5, 6] 0 [5, 6] (Except.error ()) 1 _ rfl⟩

/-- Claim C4: both bridges issue device operations strictly in sequence
order: no attempt of the send for unit i+1 occurs before the read paired
with unit i has completed successfully or failed fatally. -/
theorem bridges_send_read_strictly_ordered :
    (∀ (S E W : Type) (d : FullDuplex S E W) (fuel : Nat) (ws : List W) (s : S)
      (buf : List W) (res : Except E Unit) (s1 : S) (tr : List (Ev E W)),
      transfer d fuel ws s = some (buf, res, s1, tr) → seqOrdered false tr = true) ∧
    (∀ (S E W : Type) (d : FullDuplex S E W) (fuel : Nat) (ws : List W) (s : S)
      (buf : List W) (res : Except E Unit) (s1 : S) (tr : List (Ev E W)),
      write d fuel ws s = some (buf, res, s1, tr) → seqOrdered false tr = true) := by
  constructor
  · intro S E W d fuel ws s buf res s1 tr h
    exact transfer_seq d fuel ws s buf res s1 tr h
  · intro S E W d fuel ws s buf res s1 tr h
    obtain ⟨_, bt, htt⟩ := write_some d fuel ws s buf res s1 tr h
    exact transfer_seq d fuel ws s bt res s1 tr htt

/-- Witness for C4: the ordering check evaluates to true on a transfer with
retries and on a write that fails fatally. -/
theorem bridges_send_read_strictly_ordered_witness :
    seqOrdered false ([Ev.send 1 NbResult.wouldBlock, Ev.send 1 (NbResult.ok ()),
      Ev.read NbResult.wouldBlock, Ev.read (NbResult.ok 160),
      Ev.send 2 NbResult.wouldBlock, Ev.send 2 (NbResult.ok ()),
      Ev.read NbResult.wouldBlock, Ev.read (NbResult.ok 161)] : List (Ev Unit Nat)) = true ∧
    seqOrdered false ([Ev.send 5 (NbResult.ok ()), Ev.read (NbResult.ok 160),
      Ev.send 6 (NbResult.err ())] : List (Ev Unit Nat)) = true :=
  ⟨bridges_send_read_strictly_ordered.1 (Bool × Nat) Unit Nat devSlow 2 [1, 2] (true, 0)
      [160, 161] (Except.ok ()) (true, 2) _ rfl,
   bridges_send_read_strictly_ordered.2 Nat Unit Nat devFail 1 [5, 6] 0 [5, 6]
      (Except.error ()) 1 _ rfl⟩

/-- Claim C7: the blocking write bridge never modifies the caller's input
sequence, whatever the device does (success, transient retries, or a fatal
failure at any position). -/
theorem blocking_write_preserves_input {S E W : Type} (d : FullDuplex S E W) (fuel : Nat)
    (ws : List W) (s : S) (buf : List W) (res : Except E Unit) (s1 : S) (tr : List (Ev E W))
    (h : write d fuel ws s = some (buf, res, s1, tr)) : buf = ws :=
  (write_some d fuel ws s buf res s1 tr h).1

/-- Witness for C7 on a write run that fails fatally on its second unit. -/
theorem blocking_write_preserves_input_witness : ([5, 6] : List Nat) = [5, 6] :=
  blocking_write_preserves_input devFail 1 [5, 6] 0 [5, 6] (Except.error ()) 1
    [Ev.send 5 (NbResult.ok ()), Ev.read (NbResult.ok 160), Ev.send 6 (NbResult.err ())] rfl

/-- Claim C8: when every send and read eventually succeeds, the blocking
write bridge sends each unit in order, performs exactly one blocking read
after each send and discards its result, and returns Ok with no data: the
completed attempts pair each input word, in order, with one received word
that does not appear in the (unchanged) caller sequence or result. -/
theorem blocking_write_sends_in_order_discards_reads {S E W : Type} (d : FullDuplex S E W)
    (fuel : Nat) (hAS : AlwaysSucceeds d fuel) (ws : List W) (s : S) :
    ∃ s1 tr rs, write d fuel ws s = some (ws, Except.ok (), s1, tr) ∧
      rs.length = ws.length ∧ completions tr = xchgList ws rs := by
  obtain ⟨bt, s1, tr, htt⟩ := transfer_total d fuel hAS ws s
  obtain ⟨hlen, hcomp⟩ := transfer_ok_spec d fuel ws s bt () s1 tr htt
  refine ⟨s1, tr, bt, ?_, hlen, hcomp⟩
  rw [write_eq_transfer, htt]
  rfl

/-- Witness for C8 at a concrete always-ready device. -/
theorem blocking_write_sends_in_order_discards_reads_witness :
    ∃ s1 tr rs, write devOk 1 [7, 8] 0 = some ([7, 8], Except.ok (), s1, tr) ∧
      rs.length = ([7, 8] : List Nat).length ∧ completions tr = xchgList [7, 8] rs :=
  blocking_write_sends_in_order_discards_reads devOk 1
    ⟨fun w s => ⟨s, [Ev.send w (NbResult.ok ())], rfl⟩,
     fun s => ⟨160 + s, s + 1, [Ev.read (NbResult.ok (160 + s))], rfl⟩⟩ [7, 8] 0

/-- Claim C10: on the empty input sequence both bridges return Ok at once,
with an empty trace — no send or read is ever attempted — and so can never
fail, for every device, fuel and initial state. -/
theorem empty_input_no_device_ops :
    ∀ (S E W : Type) (d : FullDuplex S E W) (fuel : Nat) (s : S),
      transfer d fuel [] s = some ([], Except.ok (), s, []) ∧
      write d fuel [] s = some ([], Except.ok (), s, []) :=
  fun _ _ _ _ _ _ => ⟨rfl, rfl⟩
